import Mathlib

/-!
Verification of the wallet-persona analysis pipeline ("Cluster Protocol").

The repository ships the React frontend (src/frontend/src/App.jsx and its
components) together with project documentation and a Dockerfile; the Python
backend (FastAPI orchestrator, activity cache/fetcher, feature engine,
Yeo-Johnson normalizer, K-Means cluster scorer) is referenced by the
documentation and the frontend but its source is not part of the checkout.
Frontend behaviour is embedded directly from App.jsx; backend behaviour is
modelled from the specification, with each such definition marked
`Modelled from the spec:` in its doc comment.

Numeric values are embedded as rationals (ℚ); squared Euclidean distance
stands in for Euclidean distance (both are non-negative and squaring is
strictly monotone there, so distance order and distance ties coincide).
-/

namespace ClusterSeg

/-! ## Error taxonomy (spec §7) -/

/-- Modelled from the spec: the error taxonomy of §7 (the backend source that
declares these error kinds is not in the checkout). -/
inductive ErrKind where
  | invalidAddress
  | upstreamUnavailable
  | upstreamRateLimited
  | modelArtifactMismatch
  | normalizationError
  | jobNotFound
  deriving DecidableEq, Repr

/-- Modelled from the spec: a terminal `failed` Job carries "a stable,
machine-readable error kind plus a human-readable detail string" (§7); the
detail strings are modelled as fixed human-readable sentences per kind. -/
def errDetail : ErrKind → String
  | .invalidAddress => "address failed validation"
  | .upstreamUnavailable => "upstream data provider unreachable or timed out"
  | .upstreamRateLimited => "upstream data provider throttled the request"
  | .modelArtifactMismatch => "feature vector does not match the frozen model artifacts"
  | .normalizationError => "normalization transform produced a non-finite value"
  | .jobNotFound => "unknown job identifier"

/-! ## Frontend client-side validation (src/frontend/src/App.jsx) -/

/-- What the frontend does with one click of EXECUTE: either it rejects the
input locally (setErrorMsg, no network request) or it issues the
`POST /analyze/start/<wallet>` request. Embedded from `analyzeWallet`,
src/frontend/src/App.jsx lines 17-35. -/
inductive FrontendAction where
  | reject (msg : String)
  | request (url : String)
  deriving DecidableEq, Repr

/-- `wallet.startsWith("0x")` from src/frontend/src/App.jsx line 18: the
first two characters are `0` and `x`. -/
def startsWith0x (s : String) : Bool :=
  match s.toList with
  | '0' :: 'x' :: _ => true
  | _ => false

/-- Embedded from `analyzeWallet` (src/frontend/src/App.jsx lines 17-29):
`if (!wallet.startsWith("0x")) { setErrorMsg(...); return; }` and otherwise
`axios.post(API_BASE + "/analyze/start/" + wallet)`. -/
def analyzeWallet (wallet : String) : FrontendAction :=
  if ¬ startsWith0x wallet then
    .reject "INVALID_ADDRESS: Must start with 0x"
  else
    .request ("/analyze/start/" ++ wallet)

/-- Does the action issue a network request? -/
def FrontendAction.isRequest : FrontendAction → Bool
  | .reject _ => false
  | .request _ => true

/-! ## Job state machine (spec §3 "Job", §4.6) -/

/-- A numeric display payload: {tx_count, total_nft_volume_usd,
total_gas_spent} as consumed by src/frontend/src/App.jsx lines 183-199. -/
structure DisplayStats where
  tx_count : ℚ
  total_nft_volume_usd : ℚ
  total_gas_spent : ℚ
  deriving DecidableEq, Repr

/-- Modelled from the spec: PersonaResult (§3) — assigned persona label, the
winning cluster index, per-persona confidence values indexed by cluster,
underlying numeric stats for display, optional narrative explanation. -/
structure PersonaResult where
  persona : String
  cluster : ℕ
  confidence : List ℚ
  stats : DisplayStats
  explanation : Option String
  deriving DecidableEq, Repr

/-- Modelled from the spec: a Job's state (§3) — `pending`, `running`, or a
terminal state carrying its payload (`completed` + PersonaResult,
`failed` + error kind and human-readable detail). -/
inductive JobState where
  | pending
  | running
  | completed (r : PersonaResult)
  | failed (e : ErrKind) (detail : String)
  deriving DecidableEq, Repr

/-- A Job state is terminal iff it is `completed` or `failed`. -/
def JobState.isTerminal : JobState → Bool
  | .pending => false
  | .running => false
  | .completed _ => true
  | .failed _ _ => true

/-- Modelled from the spec: the Orchestrator's per-Job transition contract
(§4.6): `pending --(scheduled)--> running`,
`running --(pipeline succeeds)--> completed`,
`running --(pipeline fails)--> failed`; no other transition exists. -/
inductive JobStep : JobState → JobState → Prop where
  | schedule : JobStep .pending .running
  | complete (r : PersonaResult) : JobStep .running (.completed r)
  | fail (e : ErrKind) (d : String) : JobStep .running (.failed e d)

/-- Zero or more orchestrator transitions. -/
inductive JobSteps : JobState → JobState → Prop where
  | refl (s : JobState) : JobSteps s s
  | tail {s t u : JobState} : JobSteps s t → JobStep t u → JobSteps s u

/-! ## Orchestrator state, submit and status (spec §4.6) -/

/-- Modelled from the spec: WalletAddress (§3) — "a validated lowercase
hexadecimal string of fixed length prefixed by a chain marker"; on Ethereum
mainnet (the only supported chain per the README) that is `0x` followed by
40 lowercase hexadecimal digits. -/
def isValidAddress (s : String) : Bool :=
  match s.toList with
  | '0' :: 'x' :: rest =>
    rest.length = 40 && rest.all (fun c => ('0' ≤ c && c ≤ '9') || ('a' ≤ c && c ≤ 'f'))
  | _ => false

/-- Modelled from the spec: the Job store owned by the Orchestrator, plus a
counter of calls made to the external ledger-data provider (to express
"no provider call made"). -/
structure OrchState where
  jobs : List (ℕ × JobState)
  nextId : ℕ
  providerCalls : ℕ
  deriving DecidableEq, Repr

/-- Modelled from the spec: `submit(WalletAddress) → JobId` (§4.6) —
"validates address syntax synchronously (fails with `InvalidAddress`
immediately, no Job created); otherwise creates a Job in `pending`,
schedules pipeline execution, and returns the JobId without waiting for
completion". The returned state is the store as it is when `submit`
returns: the new Job still `pending`, no provider call yet. -/
def submit (addr : String) (st : OrchState) : Except ErrKind ℕ × OrchState :=
  if isValidAddress addr then
    (.ok st.nextId,
      { jobs := (st.nextId, .pending) :: st.jobs
        nextId := st.nextId + 1
        providerCalls := st.providerCalls })
  else
    (.error .invalidAddress, st)

/-- Modelled from the spec: `status(JobId) → Job snapshot` (§4.6) — fails
with `JobNotFound` for an unknown identifier, otherwise returns the current
state (a pure read, no side effect on the store). -/
def status (st : OrchState) (id : ℕ) : Except ErrKind JobState :=
  match st.jobs.lookup id with
  | some j => .ok j
  | none => .error .jobNotFound

/-! ## Cluster Scorer (spec §4.5)

Distances are embedded as squared Euclidean distances over ℚ: squaring is
strictly monotone on non-negative reals, so the order of distances, the
nearest centroid, and exact distance ties are the same as for the true
Euclidean distance. -/

/-- Squared Euclidean distance between two vectors of equal length. -/
def distSq (v c : List ℚ) : ℚ :=
  (List.zipWith (fun a b => (a - b) ^ 2) v c).sum

/-- One scan step of first-minimum selection: carries the best
(index, value) pair so far and the index of the next element. -/
def goMin : List ℚ → ℕ × ℚ → ℕ → ℕ × ℚ
  | [], b, _ => b
  | x :: xs, b, i => if x < b.2 then goMin xs (i, x) (i + 1) else goMin xs b (i + 1)

/-- Index of the first minimum of a list (0 on the empty list). -/
def argminIdx : List ℚ → ℕ
  | [] => 0
  | x :: xs => (goMin xs (0, x) 1).1

/-- One scan step of first-maximum selection. -/
def goMax : List ℚ → ℕ × ℚ → ℕ → ℕ × ℚ
  | [], b, _ => b
  | x :: xs, b, i => if b.2 < x then goMax xs (i, x) (i + 1) else goMax xs b (i + 1)

/-- Index of the first maximum of a list (0 on the empty list). -/
def argmaxIdx : List ℚ → ℕ
  | [] => 0
  | x :: xs => (goMax xs (0, x) 1).1

/-- Modelled from the spec: the inverse-distance weight of one centroid
distance — "convert the vector of distances to a confidence distribution
via an inverse-distance ... transform" (§4.5); the additive 1 guards the
zero-distance singularity. Strictly decreasing in the distance on the
non-negative domain. -/
def invWeight (d : ℚ) : ℚ := 1 / (1 + d)

/-- Modelled from the spec: the per-cluster confidence distribution derived
from the vector of centroid distances (§4.5): inverse-distance weights,
normalized to sum to 1. -/
def confidences (ds : List ℚ) : List ℚ :=
  let ws := ds.map invWeight
  ws.map (fun w => w / ws.sum)

/-- Modelled from the spec: the frozen clustering model artifact — a set of
cluster centroids and a persona label for each cluster index (§4.5, §6). -/
structure ClusterModel where
  centroids : List (List ℚ)
  labels : List String
  deriving DecidableEq, Repr

/-- The vector of (squared) distances from the input to each centroid, in
cluster-index order. -/
def centroidDists (m : ClusterModel) (v : List ℚ) : List ℚ :=
  m.centroids.map (distSq v)

/-- Modelled from the spec: `score(NormalizedVector) → PersonaResult`
(§4.5) — fails with `ModelArtifactMismatch` on dimensionality mismatch
between input and centroids; otherwise computes the distance to every
centroid, derives the confidence distribution, and assigns the persona of
the nearest centroid (first such index on an exact tie). -/
def score (m : ClusterModel) (st : DisplayStats) (v : List ℚ) :
    Except ErrKind PersonaResult :=
  if m.centroids.isEmpty || m.centroids.any (fun c => c.length ≠ v.length) then
    .error .modelArtifactMismatch
  else
    let ds := centroidDists m v
    let idx := argminIdx ds
    .ok { persona := m.labels.getD idx ""
          cluster := idx
          confidence := confidences ds
          stats := st
          explanation := none }

/-! ## Activity records and the Feature Engine (spec §3, §4.3) -/

/-- Modelled from the spec: one ledger transaction — timestamp, gas cost,
direction (§3 "ActivityRecord"). -/
structure Tx where
  timestamp : ℤ
  gasCost : ℚ
  incoming : Bool
  deriving DecidableEq, Repr

/-- Modelled from the spec: one NFT trade — USD-equivalent value and
timestamp (§3 "ActivityRecord"). -/
structure NftTrade where
  timestamp : ℤ
  usdValue : ℚ
  deriving DecidableEq, Repr

/-- Modelled from the spec: the raw per-wallet ledger facts (§3). -/
structure ActivityRecord where
  txs : List Tx
  nftTrades : List NftTrade
  deriving DecidableEq, Repr

/-- The wallet with no activity at all. -/
def emptyRecord : ActivityRecord := { txs := [], nftTrades := [] }

/-- Modelled from the spec: `extract(ActivityRecord) → FeatureVector`
(§4.3, §2) — the fixed-order vector [transaction count, total NFT volume in
USD, total gas spent, auxiliary derived ratio (average gas per transaction,
guarded for the zero-transaction wallet)]. -/
def extract (r : ActivityRecord) : List ℚ :=
  let txCount : ℚ := r.txs.length
  let nftVolume : ℚ := (r.nftTrades.map (fun t => t.usdValue)).sum
  let gasTotal : ℚ := (r.txs.map (fun t => t.gasCost)).sum
  let avgGas : ℚ := if r.txs.length = 0 then 0 else gasTotal / txCount
  [txCount, nftVolume, gasTotal, avgGas]

/-- Number of features `extract` produces. -/
def featureCount : ℕ := 4

/-- The numeric stats surfaced for display (consumed as `data.stats` by
src/frontend/src/App.jsx lines 183-199). -/
def displayStats (r : ActivityRecord) : DisplayStats :=
  { tx_count := (r.txs.length : ℚ)
    total_nft_volume_usd := (r.nftTrades.map (fun t => t.usdValue)).sum
    total_gas_spent := (r.txs.map (fun t => t.gasCost)).sum }

/-! ## Normalizer (spec §4.4)

The frozen power transform is embedded as one function per feature from a
rational input to `Option ℚ`: `some y` is a finite transform output `y`,
`none` is a non-finite output (the IEEE NaN/∞ outcomes the real
Yeo-Johnson code can hit outside its domain). -/

/-- Collects a list of per-feature transform outputs, failing on the first
non-finite one. -/
def allFinite : List (Option ℚ) → Option (List ℚ)
  | [] => some []
  | o :: rest => o.bind fun x => (allFinite rest).map (fun ys => x :: ys)

/-- Modelled from the spec: `normalize(FeatureVector) → NormalizedVector`
(§4.4) — fails with `ModelArtifactMismatch` if the input length differs
from the transform's expected feature count; otherwise applies the frozen
per-feature transforms in order, surfacing any non-finite output as
`NormalizationError` rather than propagating it. -/
def normalize (params : List (ℚ → Option ℚ)) (v : List ℚ) :
    Except ErrKind (List ℚ) :=
  if v.length ≠ params.length then .error .modelArtifactMismatch
  else
    match allFinite (List.zipWith (fun f x => f x) params v) with
    | some out => .ok out
    | none => .error .normalizationError

/-! ## Activity Cache and Fetcher (spec §4.1, §4.2) -/

/-- Modelled from the spec: CacheEntry (§3) — an ActivityRecord with its
fetch timestamp and the provider-reported completeness flag. -/
structure CacheEntry where
  record : ActivityRecord
  fetchTimestamp : ℤ
  complete : Bool
  deriving DecidableEq, Repr

/-- The cache store: address-keyed entries, most recent write first. -/
abbrev CacheState := List (String × CacheEntry)

/-- Modelled from the spec: `get(address) → CacheEntry | miss` (§4.1) — a
pure lookup plus freshness check; an entry is usable only if
`now − fetch_timestamp < max_age` AND its completeness flag is true,
otherwise the lookup is a miss. -/
def cacheGet (cache : CacheState) (addr : String) (now maxAge : ℤ) :
    Option CacheEntry :=
  match cache.lookup addr with
  | some e => if now - e.fetchTimestamp < maxAge && e.complete then some e else none
  | none => none

/-- Modelled from the spec: `put(address, ActivityRecord, completeness)`
(§4.1) — created/overwritten whole on successful fetch (the newest entry
shadows any older one for its key). -/
def cachePut (cache : CacheState) (addr : String) (rec : ActivityRecord)
    (now : ℤ) (complete : Bool) : CacheState :=
  (addr, { record := rec, fetchTimestamp := now, complete := complete }) :: cache

/-- Modelled from the spec: what the external ledger-data provider returns
on success — the activity data plus whether the response was truncated
(§4.2: an entry is marked complete only for a non-error, non-truncated
response). -/
structure ProviderResp where
  record : ActivityRecord
  truncated : Bool
  deriving DecidableEq, Repr

/-- Modelled from the spec: `fetch(address) → ActivityRecord` (§4.2) —
consult the cache; on a usable hit return the cached record (no provider
query); on a miss query the provider, store the assembled entry (complete
only if not truncated) and return it, or fail with the provider's error.
The third component counts provider queries issued by this call. -/
def fetch (provider : String → Except ErrKind ProviderResp) (maxAge : ℤ)
    (cache : CacheState) (addr : String) (now : ℤ) :
    Except ErrKind ActivityRecord × CacheState × ℕ :=
  match cacheGet cache addr now maxAge with
  | some e => (.ok e.record, cache, 0)
  | none =>
    match provider addr with
    | .ok resp => (.ok resp.record, cachePut cache addr resp.record now (!resp.truncated), 1)
    | .error e => (.error e, cache, 1)

/-! ## Retry policy (spec §4.6, §7) -/

/-- Modelled from the spec: which error kinds the Orchestrator retries —
only `UpstreamRateLimited` (§4.6, §7). -/
def retryable : ErrKind → Bool
  | .upstreamRateLimited => true
  | _ => false

/-- Modelled from the spec: the Orchestrator's bounded retry loop (§4.6).
`runOnce k` is the k-th pipeline attempt, `fuel` the number of retries
still allowed. Returns the final outcome and the number of attempts made:
a retryable failure with fuel left is re-attempted, everything else is
final. -/
def retryLoop {α : Type} (runOnce : ℕ → Except ErrKind α) :
    ℕ → ℕ → Except ErrKind α × ℕ
  | k, fuel =>
    match runOnce k with
    | .ok r => (.ok r, 1)
    | .error e =>
      if retryable e then
        match fuel with
        | 0 => (.error e, 1)
        | fuel' + 1 =>
          let next := retryLoop runOnce (k + 1) fuel'
          (next.1, next.2 + 1)
      else (.error e, 1)

/-- Modelled from the spec: run the pipeline with the Orchestrator's retry
policy, at most `maxAttempts ≥ 1` attempts in total (§4.6). -/
def runWithRetry {α : Type} (runOnce : ℕ → Except ErrKind α)
    (maxAttempts : ℕ) : Except ErrKind α × ℕ :=
  retryLoop runOnce 0 (maxAttempts - 1)

/-! ## The assembled pipeline (spec §4.6) -/

/-- Modelled from the spec: the compute stages downstream of the Fetcher —
Feature Engine, then Normalizer, then Cluster Scorer (§4.6 "invokes
Fetcher → Feature Engine → Normalizer → Cluster Scorer"). -/
def analyze (params : List (ℚ → Option ℚ)) (m : ClusterModel)
    (rec : ActivityRecord) : Except ErrKind PersonaResult :=
  match normalize params (extract rec) with
  | .error e => .error e
  | .ok nv => score m (displayStats rec) nv

/-- Modelled from the spec: how a pipeline outcome becomes the Job's
terminal state (§4.6) — on success record the PersonaResult and move to
`completed`; on failure record the failure kind with its human-readable
detail and move to `failed`. -/
def finishJob : Except ErrKind PersonaResult → JobState
  | .ok r => .completed r
  | .error e => .failed e (errDetail e)

/-! ## Scan lemmas for first-minimum / first-maximum selection -/

theorem goMin_snd_le (xs : List ℚ) :
    ∀ b i, (goMin xs b i).2 ≤ b.2 ∧ ∀ x ∈ xs, (goMin xs b i).2 ≤ x := by
  induction xs with
  | nil => exact fun b i => ⟨le_refl _, by simp⟩
  | cons x xs ih =>
    intro b i
    by_cases h : x < b.2
    · have h2 := ih (i, x) (i + 1)
      simp only [goMin, if_pos h]
      refine ⟨le_trans h2.1 (le_of_lt h), ?_⟩
      intro y hy
      rcases List.mem_cons.mp hy with rfl | hy
      · exact h2.1
      · exact h2.2 y hy
    · have h2 := ih b (i + 1)
      simp only [goMin, if_neg h]
      refine ⟨h2.1, ?_⟩
      intro y hy
      rcases List.mem_cons.mp hy with rfl | hy
      · exact le_trans h2.1 (not_lt.mp h)
      · exact h2.2 y hy

theorem goMin_idx (xs : List ℚ) :
    ∀ b i, goMin xs b i = b ∨
      ∃ k, k < xs.length ∧ (goMin xs b i).1 = i + k ∧ (goMin xs b i).2 = xs.getD k 0 := by
  induction xs with
  | nil => exact fun b i => Or.inl rfl
  | cons x xs ih =>
    intro b i
    by_cases h : x < b.2
    · simp only [goMin, if_pos h]
      rcases ih (i, x) (i + 1) with heq | ⟨k, hk, h1, h2⟩
      · right
        exact ⟨0, by simp, by rw [heq]; simp, by rw [heq]; simp⟩
      · right
        refine ⟨k + 1, by simpa using hk, ?_, by simpa using h2⟩
        rw [h1]; omega
    · simp only [goMin, if_neg h]
      rcases ih b (i + 1) with heq | ⟨k, hk, h1, h2⟩
      · exact Or.inl heq
      · right
        refine ⟨k + 1, by simpa using hk, ?_, by simpa using h2⟩
        rw [h1]; omega

theorem goMin_stable (xs : List ℚ) :
    ∀ b i, (∀ x ∈ xs, ¬ x < b.2) → goMin xs b i = b := by
  induction xs with
  | nil => exact fun b i _ => rfl
  | cons x xs ih =>
    intro b i h
    have hx : ¬ x < b.2 := h x (by simp)
    simp only [goMin, if_neg hx]
    exact ih b (i + 1) (fun y hy => h y (by simp [hy]))

theorem goMin_snd_eq_imp_fst (xs : List ℚ) :
    ∀ b i, (goMin xs b i).2 = b.2 → (goMin xs b i).1 = b.1 := by
  induction xs with
  | nil => exact fun b i _ => rfl
  | cons x xs ih =>
    intro b i hv
    by_cases h : x < b.2
    · exfalso
      have hle := (goMin_snd_le xs (i, x) (i + 1)).1
      simp only [goMin, if_pos h] at hv
      rw [hv] at hle
      exact absurd hle (not_le.mpr h)
    · simp only [goMin, if_neg h] at hv ⊢
      exact ih b (i + 1) hv

theorem goMin_first (xs : List ℚ) :
    ∀ b i, b.1 ≤ i → ∀ k, k < xs.length →
      xs.getD k 0 = (goMin xs b i).2 → (goMin xs b i).1 ≤ i + k := by
  induction xs with
  | nil =>
    intro b i _ k hk
    simp at hk
  | cons x xs ih =>
    intro b i hbi k hk hval
    by_cases h : x < b.2
    · simp only [goMin, if_pos h] at hval ⊢
      cases k with
      | zero =>
        have hx : (goMin xs (i, x) (i + 1)).2 = x := by simpa using hval.symm
        have hidx := goMin_snd_eq_imp_fst xs (i, x) (i + 1) hx
        simp [hidx]
      | succ k =>
        have := ih (i, x) (i + 1) (Nat.le_succ i) k (by simpa using hk) (by simpa using hval)
        omega
    · simp only [goMin, if_neg h] at hval ⊢
      cases k with
      | zero =>
        have hgd : x = (goMin xs b (i + 1)).2 := by simpa using hval
        have hle := (goMin_snd_le xs b (i + 1)).1
        have hveq : (goMin xs b (i + 1)).2 = b.2 :=
          le_antisymm hle (hgd ▸ not_lt.mp h)
        have hidx := goMin_snd_eq_imp_fst xs b (i + 1) hveq
        rw [hidx]; omega
      | succ k =>
        have := ih b (i + 1) (by omega) k (by simpa using hk) (by simpa using hval)
        omega

theorem argminIdx_lt (ds : List ℚ) (h : ds ≠ []) : argminIdx ds < ds.length := by
  match ds with
  | [] => exact absurd rfl h
  | x :: xs =>
    simp only [argminIdx]
    rcases goMin_idx xs (0, x) 1 with heq | ⟨k, hk, h1, _⟩
    · rw [heq]; simp
    · rw [h1]; simp; omega

theorem argminIdx_getD (ds : List ℚ) (h : ds ≠ []) :
    ∀ x xs, ds = x :: xs → ds.getD (argminIdx ds) 0 = (goMin xs (0, x) 1).2 := by
  intro x xs hds
  subst hds
  simp only [argminIdx]
  rcases goMin_idx xs (0, x) 1 with heq | ⟨k, hk, h1, h2⟩
  · rw [heq]; simp
  · rw [h1, h2]
    rw [Nat.add_comm 1 k]
    simp

theorem argminIdx_val_le (ds : List ℚ) :
    ∀ j, j < ds.length → ds.getD (argminIdx ds) 0 ≤ ds.getD j 0 := by
  match ds with
  | [] =>
    intro j hj
    simp at hj
  | x :: xs =>
    intro j hj
    rw [argminIdx_getD (x :: xs) (by simp) x xs rfl]
    cases j with
    | zero => simpa using (goMin_snd_le xs (0, x) 1).1
    | succ k =>
      have hk : k < xs.length := by simpa using hj
      have hmem : xs.getD k 0 ∈ xs := by
        rw [List.getD_eq_getElem xs 0 hk]
        exact List.getElem_mem hk
      simpa using (goMin_snd_le xs (0, x) 1).2 _ hmem

theorem argminIdx_first (ds : List ℚ) :
    ∀ j, j < ds.length → ds.getD j 0 = ds.getD (argminIdx ds) 0 → argminIdx ds ≤ j := by
  match ds with
  | [] =>
    intro j hj
    simp at hj
  | x :: xs =>
    intro j hj hval
    rw [argminIdx_getD (x :: xs) (by simp) x xs rfl] at hval
    simp only [argminIdx]
    cases j with
    | zero =>
      have hx : (goMin xs (0, x) 1).2 = x := by simpa using hval.symm
      simpa using goMin_snd_eq_imp_fst xs (0, x) 1 hx
    | succ k =>
      have := goMin_first xs (0, x) 1 (by omega) k (by simpa using hj) (by simpa using hval)
      omega

theorem goMax_map_goMin (f : ℚ → ℚ)
    (hf : ∀ a b : ℚ, 0 ≤ a → 0 ≤ b → (f a < f b ↔ b < a)) :
    ∀ (xs : List ℚ) (bi i : ℕ) (bv : ℚ), 0 ≤ bv → (∀ x ∈ xs, 0 ≤ x) →
      goMax (xs.map f) (bi, f bv) i = ((goMin xs (bi, bv) i).1, f (goMin xs (bi, bv) i).2) := by
  intro xs
  induction xs with
  | nil => intro bi i bv _ _; rfl
  | cons x xs ih =>
    intro bi i bv hbv hxs
    have hx : 0 ≤ x := hxs x (by simp)
    have hcond : (f bv < f x) = (x < bv) := by
      rw [hf bv x hbv hx]
    by_cases h : x < bv
    · have h1 : f bv < f x := (hf bv x hbv hx).mpr h
      simp only [List.map_cons, goMax, goMin, if_pos h1, if_pos h]
      exact ih i (i + 1) x hx (fun y hy => hxs y (by simp [hy]))
    · have h1 : ¬ f bv < f x := fun hc => h ((hf bv x hbv hx).mp hc)
      simp only [List.map_cons, goMax, goMin, if_neg h1, if_neg h]
      exact ih bi (i + 1) bv hbv (fun y hy => hxs y (by simp [hy]))

theorem argmaxIdx_map_argminIdx (f : ℚ → ℚ)
    (hf : ∀ a b : ℚ, 0 ≤ a → 0 ≤ b → (f a < f b ↔ b < a))
    (ds : List ℚ) (hds : ∀ x ∈ ds, 0 ≤ x) :
    argmaxIdx (ds.map f) = argminIdx ds := by
  match ds with
  | [] => rfl
  | x :: xs =>
    simp only [List.map_cons, argmaxIdx, argminIdx]
    rw [goMax_map_goMin f hf xs 0 1 x (hds x (by simp)) (fun y hy => hds y (by simp [hy]))]

/-! ## Confidence-distribution lemmas -/

theorem distSq_cons (a b : ℚ) (as bs : List ℚ) :
    distSq (a :: as) (b :: bs) = (a - b) ^ 2 + distSq as bs := by
  simp [distSq]

theorem distSq_nonneg (v c : List ℚ) : 0 ≤ distSq v c := by
  induction v generalizing c with
  | nil => simp [distSq]
  | cons a as ih =>
    cases c with
    | nil => simp [distSq]
    | cons b bs =>
      rw [distSq_cons]
      exact add_nonneg (sq_nonneg _) (ih bs)

theorem invWeight_pos (d : ℚ) (hd : 0 ≤ d) : 0 < invWeight d := by
  unfold invWeight
  exact one_div_pos.mpr (by linarith)

theorem invWeight_lt_iff (a b : ℚ) (ha : 0 ≤ a) (hb : 0 ≤ b) :
    invWeight a < invWeight b ↔ b < a := by
  unfold invWeight
  rw [one_div_lt_one_div (by linarith : (0 : ℚ) < 1 + a) (by linarith : (0 : ℚ) < 1 + b)]
  constructor <;> intro h <;> linarith

theorem invWeight_le_of_le (a b : ℚ) (ha : 0 ≤ a) (h : a ≤ b) :
    invWeight b ≤ invWeight a := by
  unfold invWeight
  exact one_div_le_one_div_of_le (by linarith) (by linarith)

theorem sum_map_div (l : List ℚ) (c : ℚ) :
    (l.map (fun x => x / c)).sum = l.sum / c := by
  induction l with
  | nil => simp
  | cons x xs ih => simp [ih, add_div]

theorem weights_sum_pos (ds : List ℚ) (hne : ds ≠ []) (hnn : ∀ x ∈ ds, 0 ≤ x) :
    0 < (ds.map invWeight).sum := by
  apply List.sum_pos
  · intro w hw
    obtain ⟨d, hd, rfl⟩ := List.mem_map.mp hw
    exact invWeight_pos d (hnn d hd)
  · simpa using hne

theorem confidences_eq_map (ds : List ℚ) :
    confidences ds = ds.map (fun d => invWeight d / (ds.map invWeight).sum) := by
  simp [confidences, List.map_map]

theorem confidences_length (ds : List ℚ) : (confidences ds).length = ds.length := by
  simp [confidences]

theorem confidences_nonneg (ds : List ℚ) (hne : ds ≠ []) (hnn : ∀ x ∈ ds, 0 ≤ x) :
    ∀ x ∈ confidences ds, 0 ≤ x := by
  intro x hx
  rw [confidences_eq_map] at hx
  obtain ⟨d, hd, rfl⟩ := List.mem_map.mp hx
  exact div_nonneg (le_of_lt (invWeight_pos d (hnn d hd)))
    (le_of_lt (weights_sum_pos ds hne hnn))

theorem confidences_sum_one (ds : List ℚ) (hne : ds ≠ []) (hnn : ∀ x ∈ ds, 0 ≤ x) :
    (confidences ds).sum = 1 := by
  rw [confidences_eq_map]
  have : ds.map (fun d => invWeight d / (ds.map invWeight).sum) =
      (ds.map invWeight).map (fun w => w / (ds.map invWeight).sum) := by
    rw [List.map_map]
    rfl
  rw [this, sum_map_div]
  exact div_self (ne_of_gt (weights_sum_pos ds hne hnn))

theorem confidences_le_one (ds : List ℚ) (hne : ds ≠ []) (hnn : ∀ x ∈ ds, 0 ≤ x) :
    ∀ x ∈ confidences ds, x ≤ 1 := by
  intro x hx
  rw [confidences_eq_map] at hx
  obtain ⟨d, hd, rfl⟩ := List.mem_map.mp hx
  have hS := weights_sum_pos ds hne hnn
  rw [div_le_one hS]
  refine List.single_le_sum ?_ _ (List.mem_map.mpr ⟨d, hd, rfl⟩)
  intro w hw
  obtain ⟨e, he, rfl⟩ := List.mem_map.mp hw
  exact le_of_lt (invWeight_pos e (hnn e he))

theorem argmax_confidences (ds : List ℚ) (hne : ds ≠ []) (hnn : ∀ x ∈ ds, 0 ≤ x) :
    argmaxIdx (confidences ds) = argminIdx ds := by
  rw [confidences_eq_map]
  apply argmaxIdx_map_argminIdx _ _ ds hnn
  intro a b ha hb
  have hS := weights_sum_pos ds hne hnn
  rw [div_lt_div_iff_of_pos_right hS]
  exact invWeight_lt_iff a b ha hb

theorem sum_of_const (l : List ℚ) (c : ℚ) (h : ∀ x ∈ l, x = c) :
    l.sum = l.length * c := by
  induction l with
  | nil => simp
  | cons x xs ih =>
    have hx := h x (by simp)
    rw [List.sum_cons, ih (fun y hy => h y (by simp [hy])), hx]
    simp [List.length_cons]
    ring

theorem argminIdx_const (ds : List ℚ) (c : ℚ) (h : ∀ x ∈ ds, x = c) :
    argminIdx ds = 0 := by
  match ds with
  | [] => rfl
  | x :: xs =>
    simp only [argminIdx]
    rw [goMin_stable xs (0, x) 1]
    intro y hy
    rw [h y (by simp [hy]), h x (by simp)]
    exact lt_irrefl c

theorem confidences_uniform (ds : List ℚ) (hne : ds ≠ []) (c : ℚ) (hc : 0 ≤ c)
    (h : ∀ x ∈ ds, x = c) :
    confidences ds = List.replicate ds.length (1 / (ds.length : ℚ)) := by
  have hw0 : 0 < invWeight c := invWeight_pos c hc
  have hwconst : ∀ w ∈ ds.map invWeight, w = invWeight c := by
    intro w hw
    obtain ⟨d, hd, rfl⟩ := List.mem_map.mp hw
    rw [h d hd]
  have hS : (ds.map invWeight).sum = (ds.length : ℚ) * invWeight c := by
    rw [sum_of_const _ _ hwconst]
    simp
  have hn : (0 : ℚ) < (ds.length : ℚ) := by
    have : 0 < ds.length := List.length_pos.mpr hne
    exact_mod_cast this
  rw [confidences_eq_map]
  rw [List.eq_replicate_iff]
  refine ⟨by simp, ?_⟩
  intro b hb
  obtain ⟨d, hd, rfl⟩ := List.mem_map.mp hb
  rw [h d hd, hS]
  rw [eq_div_iff (ne_of_gt hn)]
  field_simp
  ring

/-! ## Theorems -/

/-- C10: the frontend's client-side validation checks only that the input
starts with `0x`: any string without that prefix is rejected locally with
the fixed error message and no network request; any string with that
prefix — regardless of length, case or hexadecimal content — triggers the
`POST /analyze/start/<wallet>` request, so rejecting malformed-but-prefixed
addresses is left to the backend. -/
theorem frontend_validates_prefix_only (s : String) :
    (startsWith0x s = false →
      analyzeWallet s = .reject "INVALID_ADDRESS: Must start with 0x") ∧
    (startsWith0x s = true →
      analyzeWallet s = .request ("/analyze/start/" ++ s)) ∧
    (analyzeWallet s).isRequest = startsWith0x s := by
  refine ⟨fun h => ?_, fun h => ?_, ?_⟩
  · simp [analyzeWallet, h]
  · simp [analyzeWallet, h]
  · by_cases h : startsWith0x s = true
    · simp [analyzeWallet, h, FrontendAction.isRequest]
    · simp only [Bool.not_eq_true] at h
      simp [analyzeWallet, h, FrontendAction.isRequest]

/-- Witness for C10: `"0xZZ!"` is not a hexadecimal address but has the
prefix, so the frontend still issues the request; `"not-an-address"` is
rejected locally with no request. -/
theorem frontend_validates_prefix_only_app :
    analyzeWallet "0xZZ!" = .request "/analyze/start/0xZZ!" ∧
    analyzeWallet "not-an-address" = .reject "INVALID_ADDRESS: Must start with 0x" :=
  ⟨(frontend_validates_prefix_only "0xZZ!").2.1 (by decide),
   (frontend_validates_prefix_only "not-an-address").1 (by decide)⟩

/-- C1: Job states move only along
`pending → running → (completed | failed)`; no transition leaves a terminal
state, so any chain of orchestrator transitions starting in a terminal
state ends in the very same state (same terminal status, same
PersonaResult or error detail as returned by every later status call). -/
theorem job_state_monotone :
    (∀ s t : JobState, JobStep s t → s.isTerminal = false) ∧
    (∀ s t : JobState, JobStep s t →
      (s = .pending ∧ t = .running) ∨ (s = .running ∧ t.isTerminal = true)) ∧
    (∀ s t : JobState, JobSteps s t → s.isTerminal = true → t = s) := by
  have hstep : ∀ s t : JobState, JobStep s t → s.isTerminal = false := by
    intro s t h
    cases h <;> rfl
  refine ⟨hstep, ?_, ?_⟩
  · intro s t h
    cases h with
    | schedule => exact Or.inl ⟨rfl, rfl⟩
    | complete r => exact Or.inr ⟨rfl, rfl⟩
    | fail e d => exact Or.inr ⟨rfl, rfl⟩
  · intro s t h hterm
    induction h with
    | refl => rfl
    | tail hst htu ih =>
      cases ih
      exact absurd hterm (by simp [hstep _ _ htu])

/-- Witness for C1: the `pending → running` transition shows `pending` is
not terminal, and a chain of transitions out of a concrete failed Job
leaves it exactly where it was. -/
theorem job_state_monotone_app :
    JobState.pending.isTerminal = false ∧
    JobState.failed .upstreamUnavailable "down" =
      JobState.failed .upstreamUnavailable "down" :=
  ⟨job_state_monotone.1 _ _ JobStep.schedule,
   job_state_monotone.2.2 _ _ (JobSteps.refl _) rfl⟩

/-- C4: `submit` validates address syntax synchronously — on an invalid
address it returns `InvalidAddress` with the store untouched (no Job
created, no provider call); on a valid address it returns a fresh JobId
whose Job is in `pending` (the pipeline has not run: a status query issued
right away sees `pending`), again without any provider call. -/
theorem submit_validates_synchronously (addr : String) (st : OrchState) :
    (isValidAddress addr = false →
      submit addr st = (.error .invalidAddress, st)) ∧
    (isValidAddress addr = true →
      (submit addr st).1 = .ok st.nextId ∧
      (submit addr st).2.jobs = (st.nextId, .pending) :: st.jobs ∧
      (submit addr st).2.providerCalls = st.providerCalls ∧
      status (submit addr st).2 st.nextId = .ok .pending) := by
  constructor
  · intro h
    simp [submit, h]
  · intro h
    refine ⟨by simp [submit, h], by simp [submit, h], by simp [submit, h], ?_⟩
    simp [submit, h, status, List.lookup]

/-- Witness for C4: submitting `"not-an-address"` fails synchronously with
the store untouched; submitting a well-formed address yields JobId 0 whose
status is `pending`. -/
theorem submit_validates_synchronously_app :
    submit "not-an-address" { jobs := [], nextId := 0, providerCalls := 0 } =
      (.error .invalidAddress, { jobs := [], nextId := 0, providerCalls := 0 }) ∧
    status (submit "0xaaaaaaaaaaaaaaaaaaaaaaaaaaaaaaaaaaaaaaaa"
      { jobs := [], nextId := 0, providerCalls := 0 }).2 0 = .ok .pending :=
  ⟨(submit_validates_synchronously _ _).1 (by decide),
   ((submit_validates_synchronously _ _).2 (by decide)).2.2.2⟩

theorem centroidDists_nonneg (m : ClusterModel) (v : List ℚ) :
    ∀ x ∈ centroidDists m v, 0 ≤ x := by
  intro x hx
  obtain ⟨c, _, rfl⟩ := List.mem_map.mp hx
  exact distSq_nonneg v c

theorem centroidDists_ne_nil (m : ClusterModel) (v : List ℚ)
    (h : m.centroids ≠ []) : centroidDists m v ≠ [] := by
  simp [centroidDists, h]

theorem score_ok_inv (m : ClusterModel) (st : DisplayStats) (v : List ℚ)
    (r : PersonaResult) (h : score m st v = .ok r) :
    m.centroids ≠ [] ∧
    r.confidence = confidences (centroidDists m v) ∧
    r.cluster = argminIdx (centroidDists m v) ∧
    r.persona = m.labels.getD (argminIdx (centroidDists m v)) "" ∧
    r.stats = st ∧ r.explanation = none := by
  unfold score at h
  by_cases hc : m.centroids.isEmpty || m.centroids.any (fun c => c.length ≠ v.length)
  · rw [if_pos hc] at h
    cases h
  · rw [if_neg hc] at h
    have hne : m.centroids ≠ [] := by
      intro he
      exact hc (by simp [he])
    cases h
    exact ⟨hne, rfl, rfl, rfl, rfl, rfl⟩

/-- C3: on every accepted input, the Cluster Scorer's confidence
distribution is entry-wise non-negative, sums to exactly 1 (stronger than
within floating-point tolerance: the embedding is over ℚ), and the
confidence at the nearest-centroid index (smallest distance, first such
index) is at least every other confidence. -/
theorem cluster_scorer_distribution (m : ClusterModel) (st : DisplayStats)
    (v : List ℚ) (r : PersonaResult) (h : score m st v = .ok r) :
    (∀ x ∈ r.confidence, 0 ≤ x) ∧
    r.confidence.sum = 1 ∧
    (∀ j, j < r.confidence.length →
      r.confidence.getD j 0 ≤ r.confidence.getD (argminIdx (centroidDists m v)) 0) := by
  obtain ⟨hne, hconf, -, -, -, -⟩ := score_ok_inv m st v r h
  have hdsne : centroidDists m v ≠ [] := centroidDists_ne_nil m v hne
  have hnn : ∀ x ∈ centroidDists m v, 0 ≤ x := centroidDists_nonneg m v
  refine ⟨?_, ?_, ?_⟩
  · rw [hconf]
    exact confidences_nonneg _ hdsne hnn
  · rw [hconf]
    exact confidences_sum_one _ hdsne hnn
  · intro j hj
    rw [hconf, confidences_length] at hj
    have hmlt : argminIdx (centroidDists m v) < (centroidDists m v).length :=
      argminIdx_lt _ hdsne
    have hminle := argminIdx_val_le (centroidDists m v) j hj
    rw [hconf, confidences_eq_map]
    rw [List.getD_eq_getElem _ 0 (by simpa using hj),
        List.getD_eq_getElem _ 0 (by simpa using hmlt)]
    simp only [List.getElem_map]
    have hS := weights_sum_pos _ hdsne hnn
    rw [List.getD_eq_getElem _ 0 hj, List.getD_eq_getElem _ 0 hmlt] at hminle
    have hjn : 0 ≤ (centroidDists m v)[j] := hnn _ (List.getElem_mem hj)
    have hmn : 0 ≤ (centroidDists m v)[argminIdx (centroidDists m v)] :=
      hnn _ (List.getElem_mem hmlt)
    have hw := invWeight_le_of_le _ _ hmn hminle
    gcongr

/-- Witness for C3: for centroids [[0]], [[2]] and input [0] the scorer
returns confidences [5/6, 1/6]: non-negative, summing to 1, maximal at the
nearest centroid's index. -/
theorem cluster_scorer_distribution_app :
    ([5/6, 1/6] : List ℚ).sum = 1 ∧
    ([5/6, 1/6] : List ℚ).getD 1 0 ≤
      ([5/6, 1/6] : List ℚ).getD
        (argminIdx (centroidDists ⟨[[0], [2]], ["A", "B"]⟩ [0])) 0 := by
  have h : score ⟨[[0], [2]], ["A", "B"]⟩ ⟨0, 0, 0⟩ [0] =
      .ok ⟨"A", 0, [5/6, 1/6], ⟨0, 0, 0⟩, none⟩ := by
    norm_num [score, centroidDists, distSq, confidences, invWeight, argminIdx, goMin]
  have hmain := cluster_scorer_distribution _ _ _ _ h
  exact ⟨hmain.2.1, hmain.2.2 1 (by simp)⟩

/-- C2: for every accepted input, the assigned cluster (and its persona
label) is exactly the arg-max of the returned confidence distribution;
when distances tie exactly, the assigned index is the smallest index
attaining the tied minimal distance; and when the input is equidistant
from all centroids the distribution is uniform and the assigned cluster is
index 0. -/
theorem cluster_scorer_argmax_agrees (m : ClusterModel) (st : DisplayStats)
    (v : List ℚ) (r : PersonaResult) (h : score m st v = .ok r) :
    r.cluster = argmaxIdx r.confidence ∧
    r.persona = m.labels.getD (argmaxIdx r.confidence) "" ∧
    (∀ j, j < (centroidDists m v).length →
      (centroidDists m v).getD j 0 = (centroidDists m v).getD r.cluster 0 →
      r.cluster ≤ j) ∧
    (∀ c0, (∀ c ∈ m.centroids, distSq v c = c0) →
      r.confidence = List.replicate m.centroids.length (1 / (m.centroids.length : ℚ)) ∧
      r.cluster = 0) := by
  obtain ⟨hne, hconf, hclus, hpers, -, -⟩ := score_ok_inv m st v r h
  have hdsne : centroidDists m v ≠ [] := centroidDists_ne_nil m v hne
  have hnn : ∀ x ∈ centroidDists m v, 0 ≤ x := centroidDists_nonneg m v
  have hargmax : argmaxIdx (confidences (centroidDists m v)) =
      argminIdx (centroidDists m v) := argmax_confidences _ hdsne hnn
  refine ⟨?_, ?_, ?_, ?_⟩
  · rw [hconf, hargmax, hclus]
  · rw [hconf, hargmax, hpers]
  · intro j hj hval
    rw [hclus] at hval ⊢
    exact argminIdx_first _ j hj hval
  · intro c0 hc0
    have hall : ∀ x ∈ centroidDists m v, x = c0 := by
      intro x hx
      obtain ⟨c, hc, rfl⟩ := List.mem_map.mp hx
      exact hc0 c hc
    have hc0nn : 0 ≤ c0 := by
      obtain ⟨c, hc⟩ := List.exists_mem_of_ne_nil m.centroids hne
      rw [← hc0 c hc]
      exact distSq_nonneg v c
    constructor
    · rw [hconf, confidences_uniform _ hdsne c0 hc0nn hall]
      simp [centroidDists]
    · rw [hclus]
      exact argminIdx_const _ c0 hall

/-- Witness for C2: input [1] is equidistant (distance 1) from centroids
[0] and [2]; the scorer's confidence distribution is uniform [1/2, 1/2],
the assigned cluster is index 0, and it agrees with the arg-max of the
distribution. -/
theorem cluster_scorer_argmax_agrees_app :
    ([1/2, 1/2] : List ℚ) = List.replicate 2 (1 / (2 : ℚ)) ∧
    (0 : ℕ) = argmaxIdx ([1/2, 1/2] : List ℚ) := by
  have h : score ⟨[[0], [2]], ["A", "B"]⟩ ⟨0, 0, 0⟩ [1] =
      .ok ⟨"A", 0, [1/2, 1/2], ⟨0, 0, 0⟩, none⟩ := by
    norm_num [score, centroidDists, distSq, confidences, invWeight, argminIdx, goMin]
  have hmain := cluster_scorer_argmax_agrees _ _ _ _ h
  have huni := (hmain.2.2.2 1 (by
    intro c hc
    rcases List.mem_cons.mp hc with rfl | hc
    · norm_num [distSq]
    · rcases List.mem_cons.mp hc with rfl | hc
      · norm_num [distSq]
      · simp at hc)).1
  refine ⟨?_, hmain.1⟩
  have huni2 : ([1/2, 1/2] : List ℚ) =
      List.replicate ([[0], [2]] : List (List ℚ)).length
        (1 / (([[0], [2]] : List (List ℚ)).length : ℚ)) := huni
  rw [huni2]
  norm_num

/-! ## Normalizer lemmas -/

theorem allFinite_none (l : List (Option ℚ)) (h : none ∈ l) : allFinite l = none := by
  induction l with
  | nil => simp at h
  | cons o rest ih =>
    rcases List.mem_cons.mp h with heq | hmem
    · rw [← heq]
      rfl
    · cases o with
      | none => rfl
      | some x => simp [allFinite, ih hmem]

theorem allFinite_some (l : List (Option ℚ)) (out : List ℚ)
    (h : allFinite l = some out) : l = out.map some := by
  induction l generalizing out with
  | nil =>
    simp only [allFinite, Option.some.injEq] at h
    rw [← h]
    rfl
  | cons o rest ih =>
    cases o with
    | none => simp [allFinite] at h
    | some x =>
      cases heq : allFinite rest with
      | none =>
        rw [allFinite, heq] at h
        simp at h
      | some ys =>
        rw [allFinite, heq] at h
        have h2 : x :: ys = out := by simpa using h
        rw [← h2]
        simp [ih ys heq]

theorem allFinite_of_no_none (l : List (Option ℚ)) (h : ¬ none ∈ l) :
    ∃ out, allFinite l = some out ∧ out.length = l.length := by
  induction l with
  | nil => exact ⟨[], rfl, rfl⟩
  | cons o rest ih =>
    cases o with
    | none => exact absurd (by simp) h
    | some x =>
      obtain ⟨out, hout, hlen⟩ := ih (fun hc => h (by simp [hc]))
      exact ⟨x :: out, by simp [allFinite, hout], by simp [hlen]⟩

/-- C8: `normalize` fails with `ModelArtifactMismatch` exactly when the
input length differs from the frozen transform's expected feature count;
a successful result consists exactly of the finite per-feature transform
outputs; and a non-finite transform output is never silently propagated —
it always surfaces as `NormalizationError`, while an input on which every
per-feature transform output is finite always normalizes successfully. -/
theorem normalizer_contract (params : List (ℚ → Option ℚ)) (v : List ℚ) :
    (v.length ≠ params.length →
      normalize params v = .error .modelArtifactMismatch) ∧
    (∀ out, normalize params v = .ok out →
      List.zipWith (fun f x => f x) params v = out.map some) ∧
    (v.length = params.length →
      none ∈ List.zipWith (fun f x => f x) params v →
      normalize params v = .error .normalizationError) ∧
    (v.length = params.length →
      ¬ none ∈ List.zipWith (fun f x => f x) params v →
      ∃ out, normalize params v = .ok out ∧ out.length = params.length) := by
  refine ⟨?_, ?_, ?_, ?_⟩
  · intro h
    simp [normalize, h]
  · intro out h
    unfold normalize at h
    by_cases hl : v.length ≠ params.length
    · simp [hl] at h
    · rw [if_neg hl] at h
      cases heq : allFinite (List.zipWith (fun f x => f x) params v) with
      | none =>
        rw [heq] at h
        cases h
      | some o =>
        rw [heq] at h
        cases h
        exact allFinite_some _ _ heq
  · intro hl hmem
    unfold normalize
    rw [if_neg (by rw [hl]; exact fun hc => hc rfl)]
    rw [allFinite_none _ hmem]
  · intro hl hno
    obtain ⟨out, hout, hlen⟩ := allFinite_of_no_none _ hno
    refine ⟨out, ?_, ?_⟩
    · unfold normalize
      rw [if_neg (by rw [hl]; exact fun hc => hc rfl)]
      rw [hout]
    · rw [hlen]
      simp [List.length_zipWith, hl]

/-- Witness for C8: a 2-vector against a 1-parameter transform is a
`ModelArtifactMismatch`; a transform producing a non-finite output on [5]
surfaces as `NormalizationError`; a finite transform on [5] succeeds. -/
theorem normalizer_contract_app :
    normalize [fun x => some (x + 1)] [1, 2] = .error .modelArtifactMismatch ∧
    normalize [fun _ => none] [5] = .error .normalizationError ∧
    normalize [fun x => some (x + 1)] [5] = .ok [6] := by
  refine ⟨(normalizer_contract _ _).1 (by simp),
          (normalizer_contract _ _).2.2.1 (by simp) (by simp),
          ?_⟩
  obtain ⟨out, hout, hlen⟩ :=
    (normalizer_contract [fun x => some (x + 1)] [5]).2.2.2 (by simp) (by simp)
  have hmap := (normalizer_contract [fun x => some (x + 1)] [5]).2.1 out hout
  have : out = [6] := by
    simp at hmap
    rcases out with - | ⟨y, ys⟩
    · simp at hmap
    · simp at hmap
      norm_num [hmap.1.symm, hmap.2]
  rw [this] at hout
  exact hout

/-! ## Feature Engine lemmas -/

theorem mem_zip_app_replicate (params : List (ℚ → Option ℚ)) (c : ℚ) :
    ∀ x ∈ List.zipWith (fun f y => f y) params (List.replicate params.length c),
      ∃ f ∈ params, x = f c := by
  induction params with
  | nil => simp
  | cons g gs ih =>
    intro x hx
    rw [List.length_cons, List.replicate_succ, List.zipWith_cons_cons] at hx
    rcases List.mem_cons.mp hx with heq | hmem
    · exact ⟨g, by simp, heq⟩
    · obtain ⟨f, hf, hfx⟩ := ih x hmem
      exact ⟨f, by simp [hf], hfx⟩

/-- C7: the Feature Engine is a total function in the model; on the empty
ActivityRecord (zero transactions, zero NFT trades) it returns the
all-zero FeatureVector rather than an error (the average-gas ratio is
guarded, no divide-by-zero), and for any frozen transform of the right
arity that is finite at 0 and any non-empty centroid set of the right
dimension, the downstream normalize-and-score pipeline still completes
with some persona. -/
theorem feature_engine_empty_total (params : List (ℚ → Option ℚ))
    (m : ClusterModel)
    (hlen : params.length = featureCount)
    (hfin : ∀ f ∈ params, (f 0).isSome)
    (hne : m.centroids ≠ [])
    (hdim : ∀ c ∈ m.centroids, c.length = featureCount) :
    extract emptyRecord = List.replicate featureCount 0 ∧
    ∃ r, analyze params m emptyRecord = .ok r := by
  have hext : extract emptyRecord = List.replicate featureCount 0 := by
    simp [extract, emptyRecord, featureCount, List.replicate]
  refine ⟨hext, ?_⟩
  have hvlen : (extract emptyRecord).length = params.length := by
    rw [hext, hlen]
    simp
  have hrepl : extract emptyRecord = List.replicate params.length 0 := by
    rw [hext, hlen]
  have hno : ¬ none ∈ List.zipWith (fun f x => f x) params (extract emptyRecord) := by
    intro hmem
    rw [hrepl] at hmem
    obtain ⟨f, hf, hfx⟩ := mem_zip_app_replicate params 0 none hmem
    have hs := hfin f hf
    rw [← hfx] at hs
    simp at hs
  obtain ⟨out, hout, houtlen⟩ := allFinite_of_no_none _ hno
  have hnorm : normalize params (extract emptyRecord) = .ok out := by
    unfold normalize
    rw [if_neg (by rw [hvlen]; exact fun hc => hc rfl), hout]
  have holen : out.length = featureCount := by
    rw [houtlen]
    simp [List.length_zipWith, hvlen, hlen]
  have hguard : ¬ (m.centroids.isEmpty ||
      m.centroids.any (fun c => c.length ≠ out.length)) = true := by
    simp only [Bool.or_eq_true, List.any_eq_true, decide_eq_true_eq]
    rintro (hemp | ⟨c, hc, hclen⟩)
    · exact hne (List.isEmpty_iff.mp hemp)
    · exact hclen (by rw [hdim c hc, holen])
  refine ⟨{ persona := m.labels.getD (argminIdx (centroidDists m out)) ""
            cluster := argminIdx (centroidDists m out)
            confidence := confidences (centroidDists m out)
            stats := displayStats emptyRecord
            explanation := none }, ?_⟩
  have han : analyze params m emptyRecord = score m (displayStats emptyRecord) out := by
    unfold analyze
    rw [hnorm]
  rw [han]
  unfold score
  rw [if_neg hguard]

/-- Witness for C7: with the identity transform on four features and two
4-dimensional centroids, the empty wallet extracts to the zero vector (and
the pipeline completes on it). -/
theorem feature_engine_empty_total_app :
    extract emptyRecord = List.replicate featureCount 0 :=
  (feature_engine_empty_total
    [fun x => some x, fun x => some x, fun x => some x, fun x => some x]
    ⟨[[0, 0, 0, 0], [1, 1, 1, 1]], ["A", "B"]⟩
    (by simp [featureCount])
    (by intro f hf; fin_cases hf <;> simp)
    (by simp)
    (by intro c hc; fin_cases hc <;> simp [featureCount])).1

/-! ## Retry-policy lemmas -/

theorem retryLoop_nonretryable {α : Type} (runOnce : ℕ → Except ErrKind α)
    (k fuel : ℕ) (e : ErrKind) (h : runOnce k = .error e)
    (hr : retryable e = false) :
    retryLoop runOnce k fuel = (.error e, 1) := by
  unfold retryLoop
  rw [h]
  simp [hr]

theorem retryLoop_attempts {α : Type} (runOnce : ℕ → Except ErrKind α) :
    ∀ fuel k, (retryLoop runOnce k fuel).2 ≤ fuel + 1 := by
  intro fuel
  induction fuel with
  | zero =>
    intro k
    unfold retryLoop
    cases h : runOnce k with
    | ok r => simp
    | error e => by_cases hr : retryable e <;> simp [hr]
  | succ f ih =>
    intro k
    unfold retryLoop
    cases h : runOnce k with
    | ok r => simp
    | error e =>
      by_cases hr : retryable e
      · simp only [hr, if_true]
        have := ih (k + 1)
        simp
        omega
      · simp [hr]

theorem retryLoop_all_throttled {α : Type} (runOnce : ℕ → Except ErrKind α)
    (hall : ∀ k, runOnce k = .error .upstreamRateLimited) :
    ∀ fuel k, retryLoop runOnce k fuel = (.error .upstreamRateLimited, fuel + 1) := by
  intro fuel
  induction fuel with
  | zero =>
    intro k
    unfold retryLoop
    rw [hall k]
    simp [retryable]
  | succ f ih =>
    intro k
    unfold retryLoop
    rw [hall k]
    simp only [retryable, if_true]
    rw [ih (k + 1)]

/-- The provider of the end-to-end scenario of spec §8: throttles the first
two attempts, succeeds on the third. -/
def throttleTwice {α : Type} (r : α) : ℕ → Except ErrKind α :=
  fun k => if k < 2 then .error .upstreamRateLimited else .ok r

/-- C5: only `UpstreamRateLimited` is retryable; any other pipeline error
on the first attempt is surfaced at once after exactly one attempt; the
number of attempts never exceeds the bound; a pipeline that is throttled
on every attempt is surfaced as the rate-limit error after exactly `bound`
attempts; and a provider that throttles twice then succeeds yields success
within any bound of at least 3. -/
theorem orchestrator_retry_policy {α : Type} (runOnce : ℕ → Except ErrKind α)
    (bound : ℕ) :
    (∀ e : ErrKind, retryable e = true ↔ e = .upstreamRateLimited) ∧
    (∀ e : ErrKind, runOnce 0 = .error e → retryable e = false →
      runWithRetry runOnce bound = (.error e, 1)) ∧
    (1 ≤ bound → (runWithRetry runOnce bound).2 ≤ bound) ∧
    ((∀ k, runOnce k = .error .upstreamRateLimited) → 1 ≤ bound →
      runWithRetry runOnce bound = (.error .upstreamRateLimited, bound)) ∧
    (∀ r : α, 3 ≤ bound → runWithRetry (throttleTwice r) bound = (.ok r, 3)) := by
  refine ⟨?_, ?_, ?_, ?_, ?_⟩
  · intro e
    cases e <;> simp [retryable]
  · intro e h hr
    unfold runWithRetry
    exact retryLoop_nonretryable runOnce 0 (bound - 1) e h hr
  · intro hb
    unfold runWithRetry
    have := retryLoop_attempts runOnce (bound - 1) 0
    omega
  · intro hall hb
    unfold runWithRetry
    rw [retryLoop_all_throttled runOnce hall (bound - 1) 0]
    congr 1
    omega
  · intro r hb
    unfold runWithRetry
    have hf : bound - 1 = (bound - 3) + 2 := by omega
    rw [hf]
    have e0 : throttleTwice r 0 = .error .upstreamRateLimited := by
      simp [throttleTwice]
    have e1 : throttleTwice r 1 = .error .upstreamRateLimited := by
      simp [throttleTwice]
    have e2 : throttleTwice r 2 = .ok r := by
      simp [throttleTwice]
    have s2 : retryLoop (throttleTwice r) 2 (bound - 3) = (.ok r, 1) := by
      unfold retryLoop
      rw [e2]
    have s1 : retryLoop (throttleTwice r) 1 ((bound - 3) + 1) = (.ok r, 2) := by
      unfold retryLoop
      rw [e1]
      simp only [retryable, if_true]
      rw [s2]
    unfold retryLoop
    rw [e0]
    simp only [retryable, if_true]
    rw [s1]

/-- Witness for C5: a provider that always fails with
`UpstreamUnavailable` is never retried (one attempt, immediate failure),
and the throttle-twice provider succeeds on the third of three allowed
attempts. -/
theorem orchestrator_retry_policy_app :
    runWithRetry (fun _ : ℕ => (.error .upstreamUnavailable : Except ErrKind ℕ)) 3 =
      (.error .upstreamUnavailable, 1) ∧
    runWithRetry (throttleTwice (42 : ℕ)) 3 = (.ok 42, 3) :=
  ⟨(orchestrator_retry_policy _ 3).2.1 .upstreamUnavailable rfl rfl,
   (orchestrator_retry_policy (fun _ : ℕ => (.error .upstreamUnavailable : Except ErrKind ℕ)) 3).2.2.2.2
     42 (by omega)⟩

/-! ## Cache / Fetcher theorems -/

/-- Counterexample for C6 as stated: with a provider that is down, two
Fetcher calls for the same address within the freshness window (times 0
and 1, max_age 10) issue two provider queries, not at most one — nothing
usable is ever cached, so the second call re-queries. -/
theorem fetcher_single_query_cex :
    (fetch (fun _ => .error .upstreamUnavailable) 10 [] "0xaa" 0).2.2 +
      (fetch (fun _ => .error .upstreamUnavailable) 10
        (fetch (fun _ => .error .upstreamUnavailable) 10 [] "0xaa" 0).2.1
        "0xaa" 1).2.2 = 2 := by
  rfl

/-- C6 (amended): a cached entry is usable iff it is the stored entry for
the address, strictly younger than max_age, and flagged complete (`get` is
this pure lookup plus freshness check — a usable hit issues no provider
query); two Fetcher calls for the same address within the freshness
window issue at most one provider query provided the provider answers the
address with a successful, non-truncated response; and a call after the
window has expired issues a new provider query. -/
theorem cache_freshness_policy
    (provider : String → Except ErrKind ProviderResp) (maxAge : ℤ)
    (cache : CacheState) (addr : String) (t1 t2 t3 : ℤ)
    (rec : ActivityRecord) (e : CacheEntry)
    (hp : provider addr = .ok ⟨rec, false⟩) :
    (cacheGet cache addr t1 maxAge = some e ↔
      cache.lookup addr = some e ∧ t1 - e.fetchTimestamp < maxAge ∧
        e.complete = true) ∧
    (cacheGet cache addr t1 maxAge = some e →
      fetch provider maxAge cache addr t1 = (.ok e.record, cache, 0)) ∧
    (t1 ≤ t2 → t2 - t1 < maxAge →
      (fetch provider maxAge cache addr t1).2.2 +
        (fetch provider maxAge ((fetch provider maxAge cache addr t1).2.1)
          addr t2).2.2 ≤ 1) ∧
    (cacheGet cache addr t1 maxAge = none → maxAge ≤ t3 - t1 →
      (fetch provider maxAge ((fetch provider maxAge cache addr t1).2.1)
        addr t3).2.2 = 1) := by
  have hget : ∀ t : ℤ, cacheGet cache addr t maxAge = some e ↔
      cache.lookup addr = some e ∧ t - e.fetchTimestamp < maxAge ∧
        e.complete = true := by
    intro t
    unfold cacheGet
    cases h : cache.lookup addr with
    | none => simp
    | some e2 =>
      dsimp only
      by_cases hc : (decide (t - e2.fetchTimestamp < maxAge) && e2.complete) = true
      · rw [if_pos hc]
        simp only [Bool.and_eq_true, decide_eq_true_eq] at hc
        simp only [Option.some.injEq]
        constructor
        · rintro rfl
          exact ⟨rfl, hc.1, hc.2⟩
        · rintro ⟨rfl, -, -⟩
          rfl
      · rw [if_neg hc]
        simp only [Bool.and_eq_true, decide_eq_true_eq] at hc
        constructor
        · rintro h0
          cases h0
        · rintro ⟨he, h1, h2⟩
          have he2 : e2 = e := (Option.some.injEq _ _).mp he
          rw [he2] at hc
          exact absurd ⟨h1, h2⟩ hc
  have hput : cacheGet (cachePut cache addr rec t1 true) addr t2 maxAge =
      (if t2 - t1 < maxAge then some ⟨rec, t1, true⟩ else none) := by
    unfold cacheGet cachePut
    simp only [List.lookup, beq_self_eq_true]
    by_cases h12 : t2 - t1 < maxAge
    · simp [h12]
    · simp [h12]
  refine ⟨hget t1, ?_, ?_, ?_⟩
  · intro h
    unfold fetch
    rw [h]
  · intro ht hw
    unfold fetch
    cases hg : cacheGet cache addr t1 maxAge with
    | some e1 =>
      cases hg2 : cacheGet cache addr t2 maxAge with
      | some e2 => simp
      | none =>
        rw [hp]
        simp
    | none =>
      rw [hp]
      have h2 : cacheGet (cachePut cache addr rec t1 true) addr t2 maxAge =
          some ⟨rec, t1, true⟩ := by
        rw [hput, if_pos hw]
      dsimp only
      rw [Bool.not_false]
      rw [h2]
      simp
  · intro hmiss hexp
    unfold fetch
    rw [hmiss, hp]
    have h3 : cacheGet (cachePut cache addr rec t1 true) addr t3 maxAge = none := by
      unfold cacheGet cachePut
      simp only [List.lookup, beq_self_eq_true]
      rw [if_neg]
      simp only [Bool.and_eq_true, decide_eq_true_eq]
      rintro ⟨h1, -⟩
      omega
    dsimp only
    rw [Bool.not_false]
    rw [h3]

/-- Witness for C6 (amended): with a healthy provider serving the empty
record, a miss at time 0 followed by a call at time 1 (max_age 10) issues
one query in total, and a call at time 20 — after the window — issues a
fresh query. -/
theorem cache_freshness_policy_app :
    (fetch (fun _ : String => (.ok ⟨⟨[], []⟩, false⟩ : Except ErrKind ProviderResp))
        10 [] "0xaa" 0).2.2 +
      (fetch (fun _ : String => (.ok ⟨⟨[], []⟩, false⟩ : Except ErrKind ProviderResp))
        10 ((fetch (fun _ : String => (.ok ⟨⟨[], []⟩, false⟩ : Except ErrKind ProviderResp))
          10 [] "0xaa" 0).2.1) "0xaa" 1).2.2 ≤ 1 ∧
    (fetch (fun _ : String => (.ok ⟨⟨[], []⟩, false⟩ : Except ErrKind ProviderResp))
        10 ((fetch (fun _ : String => (.ok ⟨⟨[], []⟩, false⟩ : Except ErrKind ProviderResp))
          10 [] "0xaa" 0).2.1) "0xaa" 20).2.2 = 1 :=
  ⟨(cache_freshness_policy _ 10 [] "0xaa" 0 1 20 ⟨[], []⟩
      ⟨⟨[], []⟩, 0, true⟩ rfl).2.2.1 (by decide) (by decide),
   (cache_freshness_policy _ 10 [] "0xaa" 0 1 20 ⟨[], []⟩
      ⟨⟨[], []⟩, 0, true⟩ rfl).2.2.2 rfl (by decide)⟩

/-! ## Terminal payloads -/

theorem analyze_ok_inv (params : List (ℚ → Option ℚ)) (m : ClusterModel)
    (rec : ActivityRecord) (r : PersonaResult)
    (h : analyze params m rec = .ok r) :
    ∃ nv, normalize params (extract rec) = .ok nv ∧
      score m (displayStats rec) nv = .ok r := by
  unfold analyze at h
  cases hn : normalize params (extract rec) with
  | error e =>
    rw [hn] at h
    cases h
  | ok nv =>
    rw [hn] at h
    exact ⟨nv, rfl, h⟩

theorem errDetail_ne_empty (e : ErrKind) : errDetail e ≠ "" := by
  cases e <;> decide

/-- C9: a terminal Job state always carries a payload — `completed` a
PersonaResult, `failed` an error kind with a non-empty human-readable
detail string; a finished pipeline run is always terminal; its `failed`
detail is exactly the fixed human-readable text for the recorded error
kind; and its `completed` PersonaResult carries confidences in [0, 1]
summing to 1 along with the display stats of the analyzed record. -/
theorem terminal_payloads (params : List (ℚ → Option ℚ)) (m : ClusterModel)
    (rec : ActivityRecord) :
    (∀ s : JobState, s.isTerminal = true →
      (∃ r, s = .completed r) ∨ (∃ e d, s = .failed e d)) ∧
    (finishJob (analyze params m rec)).isTerminal = true ∧
    (∀ e d, finishJob (analyze params m rec) = .failed e d →
      d = errDetail e ∧ d ≠ "") ∧
    (∀ r, finishJob (analyze params m rec) = .completed r →
      (∀ x ∈ r.confidence, 0 ≤ x ∧ x ≤ 1) ∧ r.confidence.sum = 1 ∧
      r.stats = displayStats rec) := by
  refine ⟨?_, ?_, ?_, ?_⟩
  · intro s hs
    cases s with
    | pending => cases hs
    | running => cases hs
    | completed r => exact Or.inl ⟨r, rfl⟩
    | failed e d => exact Or.inr ⟨e, d, rfl⟩
  · cases h : analyze params m rec <;> simp [finishJob, h, JobState.isTerminal]
  · intro e d h
    cases ha : analyze params m rec with
    | error e0 =>
      rw [finishJob.eq_def, ha] at h
      cases h
      exact ⟨rfl, errDetail_ne_empty _⟩
    | ok r0 =>
      rw [finishJob.eq_def, ha] at h
      cases h
  · intro r h
    cases ha : analyze params m rec with
    | error e0 =>
      rw [finishJob.eq_def, ha] at h
      cases h
    | ok r0 =>
      rw [finishJob.eq_def, ha] at h
      cases h
      obtain ⟨nv, -, hs⟩ := analyze_ok_inv params m rec r ha
      obtain ⟨hne, hconf, -, -, hst, -⟩ := score_ok_inv m (displayStats rec) nv r hs
      have hdsne : centroidDists m nv ≠ [] := centroidDists_ne_nil m nv hne
      have hnn : ∀ x ∈ centroidDists m nv, 0 ≤ x := centroidDists_nonneg m nv
      refine ⟨?_, ?_, hst⟩
      · intro x hx
        rw [hconf] at hx
        exact ⟨confidences_nonneg _ hdsne hnn x hx,
               confidences_le_one _ hdsne hnn x hx⟩
      · rw [hconf]
        exact confidences_sum_one _ hdsne hnn

/-- Witness for C9: a run failing in the Normalizer carries the
`NormalizationError` kind with its non-empty detail text, and a completed
run carries confidences [5/6, 1/6] summing to 1. -/
theorem terminal_payloads_app :
    errDetail .normalizationError = errDetail .normalizationError ∧
    errDetail .normalizationError ≠ "" ∧
    ([5/6, 1/6] : List ℚ).sum = 1 := by
  have hfail := (terminal_payloads
    [fun _ => none, fun x => some x, fun x => some x, fun x => some x]
    ⟨[[0, 0, 0, 0], [1, 1, 1, 1]], ["A", "B"]⟩ emptyRecord).2.2.1
    .normalizationError (errDetail .normalizationError)
    (by norm_num [analyze, normalize, allFinite, extract, emptyRecord, finishJob])
  have hok := (terminal_payloads
    [fun x => some x, fun x => some x, fun x => some x, fun x => some x]
    ⟨[[0, 0, 0, 0], [1, 1, 1, 1]], ["A", "B"]⟩ emptyRecord).2.2.2
    ⟨"A", 0, [5/6, 1/6], ⟨0, 0, 0⟩, none⟩
    (by
      have : analyze [fun x => some x, fun x => some x, fun x => some x, fun x => some x]
          ⟨[[0, 0, 0, 0], [1, 1, 1, 1]], ["A", "B"]⟩ emptyRecord =
          .ok ⟨"A", 0, [5/6, 1/6], ⟨0, 0, 0⟩, none⟩ := by
        norm_num [analyze, normalize, allFinite, extract, emptyRecord, displayStats,
          score, centroidDists, distSq, confidences, invWeight, argminIdx, goMin,
          featureCount]
      rw [finishJob.eq_def, this])
  exact ⟨hfail.1, hfail.2, hok.2.1⟩

end ClusterSeg
